import Mathlib

/-!
Verification development for the LysioDB calculation engine
(src/LysioDB/calculations.py).

Survey numbers are modelled as exact rationals extended with the IEEE
special values (NaN and the two infinities), so that the zero-division,
`fill_nan` and `fill_null` behaviour of the polars pipeline is captured
faithfully.  Missing cells (polars nulls) are modelled as `Option`
values.  Where polars leaves a group order unspecified (`group_by`
without `maintain_order`), groups are listed in order of first
appearance, which is one realizable order.  Exceptions raised by the
Python code are modelled by `Option`/`Except` results.
-/

set_option autoImplicit false

/-- IEEE-style float value: NaN, the infinities, or a finite rational. -/
inductive FV where
  | nan : FV
  | pinf : FV
  | ninf : FV
  | fin : ℚ → FV
deriving DecidableEq, Repr

/-- IEEE negation. -/
def fneg : FV → FV
  | .nan => .nan
  | .pinf => .ninf
  | .ninf => .pinf
  | .fin q => .fin (-q)

/-- IEEE addition (first matching pattern wins). -/
def fadd : FV → FV → FV
  | .nan, _ => .nan
  | _, .nan => .nan
  | .pinf, .ninf => .nan
  | .ninf, .pinf => .nan
  | .pinf, _ => .pinf
  | _, .pinf => .pinf
  | .ninf, _ => .ninf
  | _, .ninf => .ninf
  | .fin a, .fin b => .fin (a + b)

/-- IEEE multiplication. -/
def fmul : FV → FV → FV
  | .nan, _ => .nan
  | _, .nan => .nan
  | .pinf, .pinf => .pinf
  | .pinf, .ninf => .ninf
  | .ninf, .pinf => .ninf
  | .ninf, .ninf => .pinf
  | .pinf, .fin b => if 0 < b then .pinf else if b < 0 then .ninf else .nan
  | .fin a, .pinf => if 0 < a then .pinf else if a < 0 then .ninf else .nan
  | .ninf, .fin b => if 0 < b then .ninf else if b < 0 then .pinf else .nan
  | .fin a, .ninf => if 0 < a then .ninf else if a < 0 then .pinf else .nan
  | .fin a, .fin b => .fin (a * b)

/-- IEEE division (signed zeros ignored: dividing a nonzero finite value
by zero yields the infinity of the numerator's sign, 0/0 yields NaN). -/
def fdiv : FV → FV → FV
  | .nan, _ => .nan
  | _, .nan => .nan
  | .pinf, .pinf => .nan
  | .pinf, .ninf => .nan
  | .ninf, .pinf => .nan
  | .ninf, .ninf => .nan
  | .pinf, .fin b => if b < 0 then .ninf else .pinf
  | .ninf, .fin b => if b < 0 then .pinf else .ninf
  | .fin _, .pinf => .fin 0
  | .fin _, .ninf => .fin 0
  | .fin a, .fin b =>
      if b = 0 then (if 0 < a then .pinf else if a < 0 then .ninf else .nan)
      else .fin (a / b)

/-- IEEE subtraction. -/
def fsub (a b : FV) : FV := fadd a (fneg b)

/-- IEEE absolute value. -/
def fabs : FV → FV
  | .nan => .nan
  | .pinf => .pinf
  | .ninf => .pinf
  | .fin q => .fin |q|

/-- polars `fill_nan`: replace NaN with a default. -/
def fillNan (x d : FV) : FV := if x = FV.nan then d else x

/-- Binary maximum with polars float-ordering semantics (NaN greatest). -/
def fmax2 : FV → FV → FV
  | .nan, _ => .nan
  | _, .nan => .nan
  | .pinf, _ => .pinf
  | _, .pinf => .pinf
  | .ninf, b => b
  | a, .ninf => a
  | .fin a, .fin b => .fin (max a b)

/-- Python `<` on floats: comparisons against NaN are false. -/
def fltB : FV → FV → Bool
  | .nan, _ => false
  | _, .nan => false
  | .pinf, _ => false
  | .ninf, .ninf => false
  | .ninf, _ => true
  | .fin _, .pinf => true
  | .fin _, .ninf => false
  | .fin a, .fin b => decide (a < b)

/-- Sum of a list of float values (polars column sum over no nulls). -/
def fsum (l : List FV) : FV := l.foldr fadd (FV.fin 0)

/-- `x` is a strictly positive finite value. -/
def fvPosB : FV → Bool
  | .fin q => decide (0 < q)
  | _ => false

theorem fadd_posB {a b : FV} (ha : fvPosB a = true) (hb : fvPosB b = true) :
    fvPosB (fadd a b) = true := by
  cases a <;> cases b <;> simp_all [fvPosB, fadd]
  all_goals positivity

theorem fmul_posB {a b : FV} (ha : fvPosB a = true) (hb : fvPosB b = true) :
    fvPosB (fmul a b) = true := by
  cases a <;> cases b <;> simp_all [fvPosB, fmul]

theorem fdiv_posB {a b : FV} (ha : fvPosB a = true) (hb : fvPosB b = true) :
    fvPosB (fdiv a b) = true := by
  cases a with
  | nan => simp [fvPosB] at ha
  | pinf => simp [fvPosB] at ha
  | ninf => simp [fvPosB] at ha
  | fin qa =>
    cases b with
    | nan => simp [fvPosB] at hb
    | pinf => simp [fvPosB] at hb
    | ninf => simp [fvPosB] at hb
    | fin qb =>
      simp [fvPosB] at ha hb
      have hbne : qb ≠ 0 := ne_of_gt hb
      simp [fdiv, hbne, fvPosB]
      positivity

theorem fsum_posB {l : List FV} (hne : l ≠ []) (h : ∀ x ∈ l, fvPosB x = true) :
    fvPosB (fsum l) = true := by
  induction l with
  | nil => exact absurd rfl hne
  | cons a t ih =>
    cases t with
    | nil =>
      have ha := h a (List.mem_cons_self a [])
      cases a <;> simp_all [fsum, fadd, fvPosB]
    | cons b t2 =>
      have ha := h a (List.mem_cons_self a _)
      have ht : fvPosB (fsum (b :: t2)) = true :=
        ih (by simp) (fun x hx => h x (List.mem_cons_of_mem a hx))
      exact fadd_posB ha ht

theorem fillNan_one_posB {x : FV} (h : fvPosB x = true) :
    fvPosB (fillNan x (FV.fin 1)) = true := by
  cases x <;> simp_all [fvPosB, fillNan]

/-- Distinct elements of a list in order of first appearance (one
realizable output order for a polars `group_by`). -/
def firstApp {α : Type} [DecidableEq α] (l : List α) : List α :=
  l.foldl (fun acc a => if a ∈ acc then acc else acc ++ [a]) []

theorem mem_foldl_firstApp {α : Type} [DecidableEq α] (l acc : List α) (x : α)
    (h : x ∈ l.foldl (fun acc a => if a ∈ acc then acc else acc ++ [a]) acc) :
    x ∈ acc ∨ x ∈ l := by
  induction l generalizing acc with
  | nil => exact Or.inl h
  | cons a t ih =>
    simp only [List.foldl_cons] at h
    rcases ih _ h with hacc | ht
    · by_cases hmem : a ∈ acc
      · simp [hmem] at hacc
        exact Or.inl hacc
      · simp [hmem] at hacc
        rcases hacc with h1 | h2
        · exact Or.inl h1
        · exact Or.inr (by simp [h2])
    · exact Or.inr (List.mem_cons_of_mem a ht)

theorem mem_of_mem_firstApp {α : Type} [DecidableEq α] {l : List α} {x : α}
    (h : x ∈ firstApp l) : x ∈ l := by
  rcases mem_foldl_firstApp l [] x h with h1 | h2
  · simp at h1
  · exact h2

theorem mem_zipWith_exists {α β γ : Type} {f : α → β → γ} {l1 : List α}
    {l2 : List β} {x : γ} (h : x ∈ List.zipWith f l1 l2) :
    ∃ a ∈ l1, ∃ b ∈ l2, x = f a b := by
  induction l1 generalizing l2 with
  | nil => simp at h
  | cons a t ih =>
    cases l2 with
    | nil => simp at h
    | cons b t2 =>
      simp only [List.zipWith_cons_cons, List.mem_cons] at h
      rcases h with h | h
      · exact ⟨a, by simp, b, by simp, h⟩
      · rcases ih h with ⟨a2, ha2, b2, hb2, hx⟩
        exact ⟨a2, List.mem_cons_of_mem _ ha2, b2, List.mem_cons_of_mem _ hb2, hx⟩

theorem exists_zip_pair {α β : Type} {keys : List α} {ws : List β} {k : α}
    (hk : k ∈ keys) (hlen : keys.length = ws.length) :
    ∃ w ∈ ws, (k, w) ∈ keys.zip ws := by
  induction keys generalizing ws with
  | nil => simp at hk
  | cons a t ih =>
    cases ws with
    | nil => simp at hlen
    | cons b t2 =>
      rcases List.mem_cons.mp hk with h | h
      · exact ⟨b, by simp, by simp [h]⟩
      · rcases ih h (by simpa using hlen) with ⟨w, hw, hpair⟩
        exact ⟨w, List.mem_cons_of_mem _ hw, List.mem_cons_of_mem _ hpair⟩

/-!
IPF weight solver — `Calculations.weights_test`
(src/LysioDB/calculations.py lines 16-109).

A survey row is its list of mapped category values, one per calibration
dimension (the `{col}_mapped` columns); the per-dimension target table
is the ordered list of `(category value, population)` pairs produced by
grouping the melted target file.  The Excel loading itself is an
external input and is out of scope.
-/

/-- Value of row `r` in dimension `j` (the `{col}_mapped` column). -/
def keyAt (r : List ℕ) (j : ℕ) : ℕ := r.getD j 0

/-- Sum of the weights of all zipped pairs carrying key `k`
(`group_by(f"{col}_mapped").agg(pl.col("weight").sum())`). -/
def groupSum (prs : List (ℕ × FV)) (k : ℕ) : FV :=
  fsum ((prs.filter (fun p => p.1 == k)).map Prod.snd)

/-- Current weighted marginal totals of one dimension, one entry per
distinct key in order of first appearance. -/
def marginals (keys : List ℕ) (ws : List FV) : List (ℕ × FV) :=
  (firstApp keys).map (fun k => (k, groupSum (keys.zip ws) k))

/-- The factor joined back onto a row (`how="left"` join on the mapped
column followed by `fill_null(1.0)`): the entry found for the row's key,
defaulting to factor 1. -/
def lookupFactor (fs : List (ℕ × FV)) (k : ℕ) : FV :=
  match fs.find? (fun p => p.1 == k) with
  | some p => p.2
  | none => FV.fin 1

/-- One sweep of one dimension (lines 57-93).  The marginal table is
`drop_nans`-ed and then zipped POSITIONALLY with the target populations
(`pl.DataFrame({..mapped.., "weight": .., "target": target_marginals[col]["population"]})`);
mismatched lengths raise a polars ShapeError, modelled as `none`.
The factor column is `(target / weight).fill_nan(1.0).fill_null(1.0)`. -/
def sweepDim (rows : List (List ℕ)) (j : ℕ) (tgt : List (ℕ × ℚ))
    (ws : List FV) : Option (List FV) :=
  let keys := rows.map (fun r => keyAt r j)
  let mar := (marginals keys ws).filter (fun p => !(p.2 == FV.nan))
  if mar.length = tgt.length then
    let factors := List.zipWith
      (fun (m : ℕ × FV) (t : ℕ × ℚ) =>
        (m.1, fillNan (fdiv (FV.fin t.2) m.2) (FV.fin 1))) mar tgt
    some (List.zipWith (fun k w => fmul w (lookupFactor factors k)) keys ws)
  else none

/-- All dimension sweeps of one iteration, in caller order
(`for col, target_col in zip(df_columns, target_columns)`). -/
def sweepDims (rows : List (List ℕ)) :
    ℕ → List (List (ℕ × ℚ)) → List FV → Option (List FV)
  | _, [], ws => some ws
  | j, tgt :: rest, ws =>
      match sweepDim rows j tgt ws with
      | none => none
      | some ws2 => sweepDims rows (j + 1) rest ws2

/-- `(weight_df["weight"] - prev_weights).abs().max()`; `none` models the
null maximum of an empty column (whose comparison with the tolerance
would raise in Python). -/
def maxAbsDiff (xs ys : List FV) : Option FV :=
  match List.zipWith (fun a b => fabs (fsub a b)) xs ys with
  | [] => none
  | d :: ds => some (ds.foldl fmax2 d)

/-- `tolerance = 1e-6` (line 51). -/
def ipfTol : ℚ := 1 / 1000000

/-- The iteration loop (lines 54-98): run the dimension sweeps, then
stop as soon as the maximum absolute weight change drops below the
tolerance; non-convergence after the iteration budget still returns the
final weights. -/
def ipfLoop (rows : List (List ℕ)) (targets : List (List (ℕ × ℚ))) :
    ℕ → List FV → Option (List FV)
  | 0, ws => some ws
  | n + 1, ws =>
      match sweepDims rows 0 targets ws with
      | none => none
      | some ws2 =>
          match maxAbsDiff ws2 ws with
          | none => none
          | some d => if fltB d (FV.fin ipfTol) then some ws2 else ipfLoop rows targets n ws2

/-- `Calculations.weights_test`: initialize every weight to 1.0 and run
at most `max_iterations = 1000` IPF iterations. -/
def weights_test (rows : List (List ℕ)) (targets : List (List (ℕ × ℚ))) :
    Option (List FV) :=
  ipfLoop rows targets 1000 (rows.map (fun _ => FV.fin 1))

theorem marginals_posB {keys : List ℕ} {ws : List FV}
    (hws : ∀ w ∈ ws, fvPosB w = true) (hlen : keys.length = ws.length) :
    ∀ p ∈ marginals keys ws, fvPosB p.2 = true := by
  intro p hp
  rcases List.mem_map.mp hp with ⟨k, hk, rfl⟩
  have hkeys : k ∈ keys := mem_of_mem_firstApp hk
  rcases exists_zip_pair hkeys hlen with ⟨w, _, hpair⟩
  refine fsum_posB ?_ ?_
  · have hmem : (k, w) ∈ (keys.zip ws).filter (fun p => p.1 == k) :=
      List.mem_filter.mpr ⟨hpair, by simp⟩
    have hmm := List.mem_map_of_mem Prod.snd hmem
    intro hnil
    rw [hnil] at hmm
    simp at hmm
  · intro x hx
    rcases List.mem_map.mp hx with ⟨pr, hpr, rfl⟩
    have hmem : pr ∈ keys.zip ws := (List.mem_filter.mp hpr).1
    exact hws pr.2 (List.of_mem_zip hmem).2

theorem sweepDim_posB {rows : List (List ℕ)} {j : ℕ} {tgt : List (ℕ × ℚ)}
    {ws ws2 : List FV}
    (hws : ∀ w ∈ ws, fvPosB w = true) (hlen : ws.length = rows.length)
    (ht : ∀ p ∈ tgt, 0 < p.2)
    (h : sweepDim rows j tgt ws = some ws2) :
    (∀ w ∈ ws2, fvPosB w = true) ∧ ws2.length = rows.length := by
  simp only [sweepDim] at h
  set keys := rows.map (fun r => keyAt r j) with hkeysdef
  have hkeyslen : keys.length = ws.length := by simp [hkeysdef, hlen]
  set mar := (marginals keys ws).filter (fun p => !(p.2 == FV.nan)) with hmardef
  set factors := List.zipWith
    (fun (m : ℕ × FV) (t : ℕ × ℚ) =>
      (m.1, fillNan (fdiv (FV.fin t.2) m.2) (FV.fin 1))) mar tgt with hfdef
  by_cases hc : mar.length = tgt.length
  · rw [if_pos hc] at h
    injection h with h
    have hfac : ∀ f ∈ factors, fvPosB f.2 = true := by
      intro f hf
      rcases mem_zipWith_exists (hfdef ▸ hf) with ⟨m, hm, t, htm, rfl⟩
      have hmpos : fvPosB m.2 = true :=
        marginals_posB hws hkeyslen m (List.mem_filter.mp (hmardef ▸ hm)).1
      have htpos : 0 < t.2 := ht t htm
      have hdivpos : fvPosB (fdiv (FV.fin t.2) m.2) = true :=
        fdiv_posB (by simp [fvPosB, htpos]) hmpos
      exact fillNan_one_posB hdivpos
    have hlk : ∀ k, fvPosB (lookupFactor factors k) = true := by
      intro k
      unfold lookupFactor
      cases hfind : factors.find? (fun p => p.1 == k) with
      | none => simp [fvPosB]
      | some p => exact hfac p (List.mem_of_find?_eq_some hfind)
    constructor
    · intro w hw
      rw [← h] at hw
      rcases mem_zipWith_exists hw with ⟨k, _, w0, hw0, rfl⟩
      exact fmul_posB (hws w0 hw0) (hlk k)
    · rw [← h]
      simp [hkeyslen, hlen]
  · rw [if_neg hc] at h
    exact absurd h (by simp)

theorem sweepDims_posB {rows : List (List ℕ)} :
    ∀ (targets : List (List (ℕ × ℚ))) (j : ℕ) (ws ws2 : List FV),
    (∀ w ∈ ws, fvPosB w = true) → ws.length = rows.length →
    (∀ tgt ∈ targets, ∀ p ∈ tgt, 0 < p.2) →
    sweepDims rows j targets ws = some ws2 →
    (∀ w ∈ ws2, fvPosB w = true) ∧ ws2.length = rows.length := by
  intro targets
  induction targets with
  | nil =>
    intro j ws ws2 hws hlen _ h
    simp [sweepDims] at h
    exact h ▸ ⟨hws, hlen⟩
  | cons tgt rest ih =>
    intro j ws ws2 hws hlen ht h
    cases hstep : sweepDim rows j tgt ws with
    | none => simp [sweepDims, hstep] at h
    | some wsMid =>
      simp only [sweepDims, hstep] at h
      have hmid := sweepDim_posB hws hlen (ht tgt (by simp)) hstep
      exact ih (j + 1) wsMid ws2 hmid.1 hmid.2
        (fun t htm p hp => ht t (List.mem_cons_of_mem _ htm) p hp) h

theorem ipfLoop_posB {rows : List (List ℕ)} {targets : List (List (ℕ × ℚ))}
    (ht : ∀ tgt ∈ targets, ∀ p ∈ tgt, 0 < p.2) :
    ∀ (fuel : ℕ) (ws ws2 : List FV),
    (∀ w ∈ ws, fvPosB w = true) → ws.length = rows.length →
    ipfLoop rows targets fuel ws = some ws2 →
    ∀ w ∈ ws2, fvPosB w = true := by
  intro fuel
  induction fuel with
  | zero =>
    intro ws ws2 hws _ h
    simp [ipfLoop] at h
    exact h ▸ hws
  | succ n ih =>
    intro ws ws2 hws hlen h
    cases hstep : sweepDims rows 0 targets ws with
    | none => simp [ipfLoop, hstep] at h
    | some wsMid =>
      have hmid := sweepDims_posB targets 0 ws wsMid hws hlen ht hstep
      cases hdiff : maxAbsDiff wsMid ws with
      | none => simp [ipfLoop, hstep, hdiff] at h
      | some d =>
        simp only [ipfLoop, hstep, hdiff] at h
        by_cases hconv : fltB d (FV.fin ipfTol) = true
        · simp only [hconv, if_pos] at h
          injection h with h
          exact h ▸ hmid.1
        · simp only [hconv] at h
          simp at h
          exact ih wsMid ws2 hmid.1 hmid.2 h

/-- C1 (amended): provided every target population is strictly positive,
any weight vector that a completed `weights_test` run attaches to the
dataset consists of strictly positive finite values (the 0/0 factor case
is neutralized to 1.0 by `fill_nan`).  Without the positivity proviso
the original claim fails: a zero target population drives the affected
weights to exactly 0 (see `c1_cx`). -/
theorem c1_weights_positive (rows : List (List ℕ))
    (targets : List (List (ℕ × ℚ)))
    (ht : ∀ tgt ∈ targets, ∀ p ∈ tgt, 0 < p.2)
    (ws : List FV) (h : weights_test rows targets = some ws) :
    ∀ w ∈ ws, fvPosB w = true := by
  refine ipfLoop_posB ht 1000 (rows.map (fun _ => FV.fin 1)) ws ?_ (by simp) h
  intro w hw
  rcases List.mem_map.mp hw with ⟨_, _, rfl⟩
  simp [fvPosB]

/-- C1 witness: a one-row, one-dimension survey with target population 1
converges with weight 1, which is strictly positive. -/
theorem c1_weights_positive_witness :
    (∀ tgt ∈ [[((0 : ℕ), (1 : ℚ))]], ∀ p ∈ tgt, 0 < p.2) ∧
    (weights_test [[0]] [[(0, 1)]] = some [FV.fin 1]) ∧
    (∀ w ∈ [FV.fin 1], fvPosB w = true) :=
  ⟨by with_unfolding_all decide, by with_unfolding_all decide,
   c1_weights_positive [[0]] [[(0, 1)]] (by with_unfolding_all decide)
     [FV.fin 1] (by with_unfolding_all decide)⟩

/-- C1 counterexample: with target populations `{0 ↦ 0}` (a zero target,
allowed by the claim's "for every input"), the solver returns the weight
0, which is not strictly positive — the run converges in the second
iteration because the 0/0 factor is filled to 1.0 and the zero weight no
longer changes. -/
theorem c1_cx :
    weights_test [[0]] [[(0, 0)]] = some [FV.fin 0] ∧
    fvPosB (FV.fin 0) = false := by
  constructor
  · with_unfolding_all decide
  · with_unfolding_all decide

/-- The target population recorded for category value `k` in a target
table (what the specification's `target_population[category]` means). -/
def lookupTarget (tgt : List (ℕ × ℚ)) (k : ℕ) : Option ℚ :=
  (tgt.find? (fun p => p.1 == k)).map Prod.snd

/-- C5: one sweep on a survey whose first dimension has the values
`0, 1` (appearing in that order) against a target table listing category
1 first (`[(1, 4), (0, 6)]`, both marginal totals being 1).  The code
zips the two tables positionally, so the row of category 0 is multiplied
by factor 4 — category 1's target over category 0's total — although its
own category's target is 6; matching by category value would require the
factor 6/1 = 6. -/
theorem c5_eval :
    sweepDim [[0], [1]] 0 [(1, 4), (0, 6)] [FV.fin 1, FV.fin 1]
      = some [FV.fin 4, FV.fin 6] ∧
    lookupTarget [(1, 4), (0, 6)] 0 = some 6 ∧
    FV.fin (4 : ℚ) ≠ FV.fin ((6 : ℚ) / 1) := by
  refine ⟨by with_unfolding_all decide, by with_unfolding_all decide,
    by with_unfolding_all decide⟩

/-!
Percentage Aggregator — `Calculations.percentages`
(src/LysioDB/calculations.py lines 213-808).

A `PRow` is one respondent's view for a single answer column of a
question group: the (possibly null) answer value, the list of category
flag columns, and the weight.  `possible` values are the codebook's
value-label keys minus the configured missing codes; `nanL` is the list
of configured missing codes (`config.NAN_VALUES` keys).
-/

/-- One respondent row restricted to one answer column. -/
structure PRow where
  ans : Option ℚ
  flags : List (Option ℚ)
  w : ℚ
deriving DecidableEq, Repr

/-- `(pl.col(col) == value).sum()` — the `{col}_{value}_count` metric
(null answers compare to null and are not summed). -/
def countVal (rows : List PRow) (v : ℚ) : ℚ :=
  ((rows.filter (fun r => r.ans == some v)).length : ℚ)

/-- `pl.when(pl.col(col) == value).then(weight).sum()` — the
`{col}_{value}_weighted` metric. -/
def wsumVal (rows : List PRow) (v : ℚ) : ℚ :=
  ((rows.filter (fun r => r.ans == some v)).map (fun r => r.w)).sum

/-- `pl.col(col).is_in(nan_values_list)` (null gives null, counted as
false by the boolean sum). -/
def isMissAns (nanL : List ℚ) (r : PRow) : Bool :=
  match r.ans with
  | some x => decide (x ∈ nanL)
  | none => false

/-- `{col}_nan_count`. -/
def missCount (nanL : List ℚ) (rows : List PRow) : ℚ :=
  ((rows.filter (isMissAns nanL)).length : ℚ)

/-- `{col}_nan_weighted`. -/
def missWeighted (nanL : List ℚ) (rows : List PRow) : ℚ :=
  ((rows.filter (isMissAns nanL)).map (fun r => r.w)).sum

/-- `~pl.col(col).is_in(nan_values_list)` (null rows are dropped by the
filter and excluded by the `when`). -/
def isValidAns (nanL : List ℚ) (r : PRow) : Bool :=
  match r.ans with
  | some x => !(decide (x ∈ nanL))
  | none => false

/-- `{col}_total_count`: count of non-null, non-missing answers. -/
def totalCount (nanL : List ℚ) (rows : List PRow) : ℚ :=
  ((rows.filter (isValidAns nanL)).length : ℚ)

/-- `{col}_total_weighted_count`: weighted sum over the same rows. -/
def totalWeighted (nanL : List ℚ) (rows : List PRow) : ℚ :=
  ((rows.filter (isValidAns nanL)).map (fun r => r.w)).sum

/-- Unweighted `{col}_{value}_percentage`
(`(count / total_count).fill_null(0).fill_nan(0)`, lines 459-468; no
nulls can arise here, so only the NaN fill is modelled). -/
def pctValU (nanL : List ℚ) (rows : List PRow) (v : ℚ) : FV :=
  fillNan (fdiv (FV.fin (countVal rows v)) (FV.fin (totalCount nanL rows)))
    (FV.fin 0)

/-- Weighted `{col}_{value}_percentage`
(`(weighted / total_weighted).fill_null(0)`, lines 445-453: note there
is no `fill_nan` on this path). -/
def pctValW (nanL : List ℚ) (rows : List PRow) (v : ℚ) : FV :=
  fdiv (FV.fin (wsumVal rows v)) (FV.fin (totalWeighted nanL rows))

/-- Unweighted `{col}_nan_percentage`
(`nan_count / (total_count + nan_count)`, lines 499-511). -/
def missPctU (nanL : List ℚ) (rows : List PRow) : FV :=
  fillNan
    (fdiv (FV.fin (missCount nanL rows))
      (FV.fin (totalCount nanL rows + missCount nanL rows)))
    (FV.fin 0)

/-- Weighted `{col}_nan_percentage` (lines 477-493): the code divides
`nan_weighted` by `total_count + nan_weighted`, where `total_count` is
the UNWEIGHTED non-missing row count (line 479 rebinds `total_count` to
the `{col}_total_count` column inside the weighted branch). -/
def missPctW (nanL : List ℚ) (rows : List PRow) : FV :=
  fillNan
    (fdiv (FV.fin (missWeighted nanL rows))
      (FV.fin (totalCount nanL rows + missWeighted nanL rows)))
    (FV.fin 0)

/-- The specification's weighted missing-percentage: weighted missing
sum over (weighted denominator + weighted missing sum). -/
def specMissPctW (nanL : List ℚ) (rows : List PRow) : ℚ :=
  if totalWeighted nanL rows + missWeighted nanL rows = 0 then 0
  else missWeighted nanL rows / (totalWeighted nanL rows + missWeighted nanL rows)

/-- Value of category flag column `j` for a row. -/
def flagAt (r : PRow) (j : ℕ) : Option ℚ := r.flags.getD j none

/-- The groups produced by `df_group.group_by(pl.col(category_col))`
followed by `filter(pl.col(category_col).is_not_null())` (lines
419-425): one group per distinct non-null flag VALUE (0 and 1 both kept
for a boolean flag), keys in order of first appearance. -/
def flagGroupKeys (rows : List PRow) (j : ℕ) : List ℚ :=
  firstApp (rows.filterMap (fun r => flagAt r j))

/-- The rows of one flag-value group. -/
def groupRowsFor (rows : List PRow) (j : ℕ) (v : ℚ) : List PRow :=
  rows.filter (fun r => flagAt r j == some v)

/-- After line 427 overwrites the group key with the category column's
NAME, every group row carries the same `Category` label; the final pivot
(lines 687-692) uses `aggregate_function="first"`, so the value reported
for the category is the FIRST group's metric. -/
def reportedGroup (rows : List PRow) (j : ℕ) : Option (List PRow) :=
  ((flagGroupKeys rows j).map (groupRowsFor rows j)).head?

/-- The `{col}_{value}_count` finally reported for category column `j`. -/
def reportedCountVal (rows : List PRow) (j : ℕ) (v : ℚ) : Option ℚ :=
  (reportedGroup rows j).map (fun g => countVal g v)

/-- C2: two respondents, one boolean category column; the first row has
flag 0 (a non-member) and answers 2, the second has flag 1 (a member)
and answers 1.  The aggregation keeps both flag groups (both later
labelled with the category name), and the pivot's "first" aggregation
reports the flag-0 group: the reported count of answer value 1 is 0,
while the count over the flag-true rows — what the claim mandates — is
1.  Rows with a false flag thus determine the category's reported
statistics. -/
theorem c2_eval :
    flagGroupKeys
      [⟨some 2, [some 0], 1⟩, ⟨some 1, [some 1], 1⟩] 0 = [0, 1] ∧
    reportedCountVal
      [⟨some 2, [some 0], 1⟩, ⟨some 1, [some 1], 1⟩] 0 1 = some 0 ∧
    countVal
      (List.filter (fun r => flagAt r 0 == some 1)
        [⟨some 2, [some 0], 1⟩, ⟨some 1, [some 1], 1⟩]) 1 = 1 := by
  refine ⟨by with_unfolding_all decide, by with_unfolding_all decide,
    by with_unfolding_all decide⟩

/-- C4: a category group with a missing answer of weight 2 and a valid
answer of weight 2.  The weighted path reports the missing-percentage
2 / (1 + 2) = 2/3 — mixing the weighted missing sum 2 with the
unweighted non-missing count 1 — while the claim's same-path formula
gives 2 / (2 + 2) = 1/2. -/
theorem c4_eval :
    missPctW [99] [⟨some 99, [some 1], 2⟩, ⟨some 1, [some 1], 2⟩]
      = FV.fin (2 / 3) ∧
    specMissPctW [99] [⟨some 99, [some 1], 2⟩, ⟨some 1, [some 1], 2⟩]
      = 1 / 2 ∧
    ((2 : ℚ) / 3 ≠ 1 / 2) := by
  refine ⟨by with_unfolding_all decide, by with_unfolding_all decide,
    by with_unfolding_all decide⟩

/-- Every answer is null, a configured missing code, or one of the
possible (labelled) values — the situation in a run where the codebook
covers the data. -/
def ansCovered (nanL possible : List ℚ) (r : PRow) : Bool :=
  match r.ans with
  | none => true
  | some x => decide (x ∈ nanL) || decide (x ∈ possible)

/-- Sum of the unweighted value-percentages of a category group over the
possible answer values. -/
def pctSumU (nanL : List ℚ) (rows : List PRow) (possible : List ℚ) : FV :=
  fsum (possible.map (pctValU nanL rows))

theorem sum_map_add {α : Type} (l : List α) (f g : α → ℚ) :
    (l.map (fun x => f x + g x)).sum = (l.map f).sum + (l.map g).sum := by
  induction l with
  | nil => simp
  | cons a t ih =>
    simp only [List.map_cons, List.sum_cons, ih]
    ring

theorem sum_map_div {α : Type} (l : List α) (f : α → ℚ) (c : ℚ) :
    (l.map (fun x => f x / c)).sum = (l.map f).sum / c := by
  induction l with
  | nil => simp
  | cons a t ih => simp [ih, add_div]

theorem fsum_map_fin {α : Type} (l : List α) (f : α → ℚ) :
    fsum (l.map (fun x => FV.fin (f x))) = FV.fin ((l.map f).sum) := by
  induction l with
  | nil => simp [fsum]
  | cons a t ih =>
    simp only [List.map_cons, List.sum_cons]
    show fadd (FV.fin (f a)) (fsum (t.map (fun x => FV.fin (f x)))) = _
    rw [ih]
    simp [fadd]

theorem sum_indicator {l : List ℚ} (hn : l.Nodup) (x : ℚ) :
    (l.map (fun v => if x = v then (1 : ℚ) else 0)).sum
      = if x ∈ l then 1 else 0 := by
  induction l with
  | nil => simp
  | cons a t ih =>
    rcases List.nodup_cons.mp hn with ⟨ha, ht⟩
    by_cases hx : x = a
    · subst hx
      simp only [List.map_cons, List.sum_cons, if_pos rfl, ih ht]
      simp [ha]
    · simp only [List.map_cons, List.sum_cons, if_neg hx, ih ht]
      simp [List.mem_cons, hx]

theorem countVal_cons (r : PRow) (rest : List PRow) (v : ℚ) :
    countVal (r :: rest) v
      = (if r.ans = some v then (1 : ℚ) else 0) + countVal rest v := by
  by_cases h : r.ans = some v <;>
    simp [countVal, List.filter_cons, h, add_comm]

theorem totalCount_cons (nanL : List ℚ) (r : PRow) (rest : List PRow) :
    totalCount nanL (r :: rest)
      = (if isValidAns nanL r = true then (1 : ℚ) else 0)
        + totalCount nanL rest := by
  by_cases h : isValidAns nanL r = true <;>
    simp [totalCount, List.filter_cons, h, add_comm]

theorem sum_countVal {nanL possible : List ℚ} (hn : possible.Nodup)
    (hdisj : ∀ v ∈ possible, v ∉ nanL) :
    ∀ rows : List PRow, (∀ r ∈ rows, ansCovered nanL possible r = true) →
    (possible.map (fun v => countVal rows v)).sum = totalCount nanL rows := by
  intro rows
  induction rows with
  | nil =>
    intro _
    simp [countVal, totalCount]
  | cons r rest ih =>
    intro hcov
    have hrest := ih (fun x hx => hcov x (List.mem_cons_of_mem _ hx))
    have hr := hcov r (List.mem_cons_self r rest)
    have hsplit :
        (possible.map (fun v => countVal (r :: rest) v)).sum
          = (possible.map (fun v => if r.ans = some v then (1 : ℚ) else 0)).sum
            + (possible.map (fun v => countVal rest v)).sum := by
      rw [← sum_map_add]
      congr 1
      exact List.map_congr_left (fun v _ => countVal_cons r rest v)
    rw [hsplit, hrest, totalCount_cons]
    congr 1
    cases hans : r.ans with
    | none =>
      simp [hans, isValidAns]
    | some x =>
      by_cases hxnan : x ∈ nanL
      · have hxp : x ∉ possible := fun hmem => hdisj x hmem hxnan
        have : (possible.map (fun v => if (some x : Option ℚ) = some v
            then (1 : ℚ) else 0)).sum
            = (possible.map (fun v => if x = v then (1 : ℚ) else 0)).sum := by
          congr 1
          exact List.map_congr_left (fun v _ => by simp)
        rw [this, sum_indicator hn, if_neg hxp]
        simp [isValidAns, hans, hxnan]
      · have hxp : x ∈ possible := by
          simp [ansCovered, hans] at hr
          rcases hr with h1 | h2
          · exact absurd h1 hxnan
          · exact h2
        have : (possible.map (fun v => if (some x : Option ℚ) = some v
            then (1 : ℚ) else 0)).sum
            = (possible.map (fun v => if x = v then (1 : ℚ) else 0)).sum := by
          congr 1
          exact List.map_congr_left (fun v _ => by simp)
        rw [this, sum_indicator hn, if_pos hxp]
        simp [isValidAns, hans, hxnan]

theorem missCount_nonneg (nanL : List ℚ) (rows : List PRow) :
    0 ≤ missCount nanL rows := by
  simp [missCount]

/-- C8 (amended): for a category group whose denominator is positive and
whose answers are all covered by the codebook (null, a missing code, or
a labelled possible value), the value-percentages alone sum to exactly
1; adding the missing-percentage gives
`1 + missing / (denominator + missing)`, which exceeds 1 whenever the
missing count is positive — the original "values plus missing sum to 1"
fails because the missing-percentage uses the enlarged denominator while
the value-percentages do not (see `c8_cx`). -/
theorem c8_percentage_sum (nanL possible : List ℚ) (rows : List PRow)
    (hn : possible.Nodup)
    (hdisj : ∀ v ∈ possible, v ∉ nanL)
    (hcov : ∀ r ∈ rows, ansCovered nanL possible r = true)
    (hpos : 0 < totalCount nanL rows) :
    pctSumU nanL rows possible = FV.fin 1 ∧
    fadd (pctSumU nanL rows possible) (missPctU nanL rows)
      = FV.fin (1 + missCount nanL rows
          / (totalCount nanL rows + missCount nanL rows)) := by
  have hTne : totalCount nanL rows ≠ 0 := ne_of_gt hpos
  have hpct : ∀ v, pctValU nanL rows v
      = FV.fin (countVal rows v / totalCount nanL rows) := by
    intro v
    simp [pctValU, fdiv, hTne, fillNan]
  have hsum1 : pctSumU nanL rows possible = FV.fin 1 := by
    unfold pctSumU
    have : possible.map (pctValU nanL rows)
        = possible.map (fun v => FV.fin (countVal rows v / totalCount nanL rows)) :=
      List.map_congr_left (fun v _ => hpct v)
    rw [this, fsum_map_fin, sum_map_div, sum_countVal hn hdisj rows hcov,
      div_self hTne]
  have hden : totalCount nanL rows + missCount nanL rows ≠ 0 :=
    ne_of_gt (lt_of_lt_of_le hpos (le_add_of_nonneg_right (missCount_nonneg nanL rows)))
  have hmiss : missPctU nanL rows
      = FV.fin (missCount nanL rows / (totalCount nanL rows + missCount nanL rows)) := by
    simp [missPctU, fdiv, hden, fillNan]
  refine ⟨hsum1, ?_⟩
  rw [hsum1, hmiss]
  simp [fadd]

/-- C8 witness: a group with one labelled answer and no missing answers;
the value-percentages sum to 1 and the combined sum is `1 + 0/(1+0)`. -/
theorem c8_percentage_sum_witness :
    pctSumU [99] [⟨some 1, [some 1], 1⟩] [1, 2] = FV.fin 1 ∧
    fadd (pctSumU [99] [⟨some 1, [some 1], 1⟩] [1, 2])
      (missPctU [99] [⟨some 1, [some 1], 1⟩])
      = FV.fin (1 + missCount [99] [⟨some 1, [some 1], 1⟩]
          / (totalCount [99] [⟨some 1, [some 1], 1⟩]
            + missCount [99] [⟨some 1, [some 1], 1⟩])) :=
  c8_percentage_sum [99] [1, 2] [⟨some 1, [some 1], 1⟩]
    (by with_unfolding_all decide) (by with_unfolding_all decide)
    (by with_unfolding_all decide) (by with_unfolding_all decide)

/-- C8 counterexample: a category group with one labelled answer (value
1) and one missing answer (code 99): the value-percentages sum to 1, the
missing-percentage is 1/2, so values plus missing sum to 3/2, not 1. -/
theorem c8_cx :
    pctSumU [99] [⟨some 1, [some 1], 1⟩, ⟨some 99, [some 1], 1⟩] [1, 2]
      = FV.fin 1 ∧
    missPctU [99] [⟨some 1, [some 1], 1⟩, ⟨some 99, [some 1], 1⟩]
      = FV.fin (1 / 2) ∧
    fadd (pctSumU [99] [⟨some 1, [some 1], 1⟩, ⟨some 99, [some 1], 1⟩] [1, 2])
      (missPctU [99] [⟨some 1, [some 1], 1⟩, ⟨some 99, [some 1], 1⟩])
      = FV.fin (3 / 2) ∧
    ((3 : ℚ) / 2 ≠ 1) := by
  refine ⟨by with_unfolding_all decide, by with_unfolding_all decide,
    by with_unfolding_all decide, by with_unfolding_all decide⟩

/-!
Ranking Aggregator — `Calculations._calculate_ranking_metrics`
(src/LysioDB/calculations.py lines 810-1088).

An `RRow` is one respondent: the category flag value, the weight, and
the ranking slot columns (`slots.get i` is the column for rank `i+1`,
the column name `base + "M" + str(i+1)` parsing to that rank).  Ranked
item values are kept as rationals (the code casts them to Int64).
-/

/-- One respondent of a ranking question group. -/
structure RRow where
  flag : Option ℚ
  w : ℚ
  slots : List (Option ℚ)
deriving DecidableEq, Repr

/-- `df_group.filter(pl.col(category_col).is_not_null())` (line 871):
note the filter keeps any non-null flag value, 0 included. -/
def rkFiltered (rows : List RRow) : List RRow :=
  rows.filter (fun r => !r.flag.isNone)

/-- `total_respondents_count` (lines 881-886): weighted sum of the
weight column, or the row count. -/
def totalRespondents (useW : Bool) (rows : List RRow) : ℚ :=
  if useW then ((rkFiltered rows).map (fun r => r.w)).sum
  else ((rkFiltered rows).length : ℚ)

/-- The melt of one respondent's slots plus the filters of lines
911-931: null ranked items, missing-coded items and items outside the
possible values are dropped; ranks are 1-based and positive by
construction of the column names. -/
def slotOcc (nanL possible : List ℚ) (w : ℚ) : ℕ → List (Option ℚ) → List (ℕ × ℚ × ℚ)
  | _, [] => []
  | rank, none :: rest => slotOcc nanL possible w (rank + 1) rest
  | rank, some x :: rest =>
      if (!(decide (x ∈ nanL))) && decide (x ∈ possible) then
        (rank, x, w) :: slotOcc nanL possible w (rank + 1) rest
      else slotOcc nanL possible w (rank + 1) rest

/-- The melted, filtered long table for one category
(`(respondent, rank, ranked_item_value, weight)` occurrences). -/
def meltedR (nanL possible : List ℚ) (rows : List RRow) : List (ℕ × ℚ × ℚ) :=
  (rkFiltered rows).flatMap (fun r => slotOcc nanL possible r.w 1 r.slots)

/-- `total_score` of a ranked item (lines 939-958): the sum of
`1 / rank` over its occurrences, weighted by the respondent weight
when `use_weights`. -/
def totalScoreR (useW : Bool) (occ : List (ℕ × ℚ × ℚ)) (v : ℚ) : ℚ :=
  ((occ.filter (fun o => o.2.1 == v)).map
    (fun o => (1 / (o.1 : ℚ)) * (if useW then o.2.2 else 1))).sum

/-- `rank_{rk}_count` of a ranked item (lines 962-967). -/
def rankCountR (occ : List (ℕ × ℚ × ℚ)) (v : ℚ) (rk : ℕ) : ℚ :=
  ((occ.filter (fun o => o.2.1 == v && o.1 == rk)).length : ℚ)

/-- Sorted insertion, for the final `sort("Ranked Item")` (line 1078). -/
def insertSorted (x : ℚ) : List ℚ → List ℚ
  | [] => [x]
  | y :: ys => if x ≤ y then x :: y :: ys else y :: insertSorted x ys

/-- Ascending insertion sort. -/
def sortQ (l : List ℚ) : List ℚ := l.foldr insertSorted []

/-- The ranked items present in the per-category output: the `group_by`
keys of the melted table (only items that occur!), sorted ascending. -/
def rankedItems (occ : List (ℕ × ℚ × ℚ)) : List ℚ :=
  sortQ (firstApp (occ.map (fun o => o.2.1)))

theorem totalScoreR_append (useW : Bool) (l1 l2 : List (ℕ × ℚ × ℚ)) (v : ℚ) :
    totalScoreR useW (l1 ++ l2) v
      = totalScoreR useW l1 v + totalScoreR useW l2 v := by
  simp [totalScoreR, List.filter_append]

theorem totalScoreR_bind {α : Type} (useW : Bool) (l : List α)
    (g : α → List (ℕ × ℚ × ℚ)) (v : ℚ) :
    totalScoreR useW (l.flatMap g) v
      = (l.map (fun r => totalScoreR useW (g r) v)).sum := by
  induction l with
  | nil => simp [totalScoreR]
  | cons a t ih =>
    simp only [List.flatMap_cons, List.map_cons, List.sum_cons,
      totalScoreR_append, ih]

theorem totalScoreR_cons (useW : Bool) (o : ℕ × ℚ × ℚ)
    (occ : List (ℕ × ℚ × ℚ)) (v : ℚ) :
    totalScoreR useW (o :: occ) v
      = (if o.2.1 = v then (1 / (o.1 : ℚ)) * (if useW then o.2.2 else 1) else 0)
        + totalScoreR useW occ v := by
  by_cases h : o.2.1 = v <;> simp [totalScoreR, List.filter_cons, h]

theorem slotOcc_no_occ (nanL possible : List ℚ) (w : ℚ) (v : ℚ) (useW : Bool) :
    ∀ (slots : List (Option ℚ)), (∀ s ∈ slots, s ≠ some v) →
    ∀ (rank : ℕ), totalScoreR useW (slotOcc nanL possible w rank slots) v = 0 := by
  intro slots
  induction slots with
  | nil =>
    intro _ rank
    simp [slotOcc, totalScoreR]
  | cons a t ih =>
    intro h rank
    have hta : ∀ s ∈ t, s ≠ some v := fun s hs => h s (List.mem_cons_of_mem _ hs)
    cases a with
    | none =>
      simp only [slotOcc]
      exact ih hta (rank + 1)
    | some x =>
      have hxv : x ≠ v := by
        have := h (some x) (List.mem_cons_self _ _)
        simpa using this
      by_cases hc : ((!(decide (x ∈ nanL))) && decide (x ∈ possible)) = true
      · simp only [slotOcc, hc, if_true]
        rw [totalScoreR_cons]
        simp [hxv, ih hta (rank + 1)]
      · simp only [slotOcc, hc]
        simp only [Bool.false_eq_true, if_false]
        exact ih hta (rank + 1)

theorem sum_map_one {α : Type} (l : List α) :
    (l.map (fun _ => (1 : ℚ))).sum = (l.length : ℚ) := by
  induction l with
  | nil => simp
  | cons a t ih =>
    simp only [List.map_cons, List.sum_cons, List.length_cons, ih]
    push_cast
    ring

theorem mem_insertSorted {x y : ℚ} {l : List ℚ} (h : x ∈ insertSorted y l) :
    x = y ∨ x ∈ l := by
  induction l with
  | nil =>
    simp only [insertSorted, List.mem_singleton] at h
    exact Or.inl h
  | cons a t ih =>
    simp only [insertSorted] at h
    by_cases hc : y ≤ a
    · rw [if_pos hc] at h
      simpa using h
    · rw [if_neg hc] at h
      rcases List.mem_cons.mp h with h1 | h2
      · exact Or.inr (by simp [h1])
      · rcases ih h2 with h3 | h4
        · exact Or.inl h3
        · exact Or.inr (List.mem_cons_of_mem _ h4)

theorem mem_sortQ {x : ℚ} {l : List ℚ} (h : x ∈ sortQ l) : x ∈ l := by
  induction l with
  | nil => simp [sortQ] at h
  | cons a t ih =>
    simp only [sortQ, List.foldr_cons] at h
    rcases mem_insertSorted h with h1 | h2
    · simp [h1]
    · exact List.mem_cons_of_mem _ (ih h2)

/-- The claim's "category's (weighted) respondent count": the rows
whose membership flag is TRUE (value 1), per the spec's 0/1
membership-flag data model — unlike the code's denominator, which keeps
every non-null flag value. -/
def memberRows (rows : List RRow) : List RRow :=
  rows.filter (fun r => r.flag == some 1)

/-- Count (or weighted sum) of the flag-true members. -/
def memberRespondents (useW : Bool) (rows : List RRow) : ℚ :=
  if useW then ((memberRows rows).map (fun r => r.w)).sum
  else ((memberRows rows).length : ℚ)

/-- C7 (amended): the per-category metrics are computed over all rows
kept by line 871's `is_not_null` filter — flag-0 non-members included.
(a) If every kept row places item `v` at rank 1 and nowhere else, the
item's total score equals the KEPT rows' (weighted) count, and that
count coincides with the category's flag-true respondent count
precisely when every kept row is a member (second conjunct); with a
flag-0 non-member also ranking the item first, the reported score
exceeds the category's respondent count (see `c7_cx`).  (b) An item `u`
that no kept row ranks is OMITTED from the per-category output
altogether — the output has one row per occurring item only — rather
than being reported with a zero score and zero counts (its would-be
score and rank counts are 0, but no row carries them; see `c7_cx`). -/
theorem c7_ranking (useW : Bool) (nanL possible : List ℚ) (rows : List RRow)
    (v u : ℚ) (rk : ℕ)
    (hv1 : v ∈ possible) (hv2 : v ∉ nanL)
    (hfirst : ∀ r ∈ rkFiltered rows, r.slots.head? = some (some v) ∧
      ∀ s ∈ r.slots.tail, s ≠ some v)
    (hu : ∀ o ∈ meltedR nanL possible rows, o.2.1 ≠ u) :
    totalScoreR useW (meltedR nanL possible rows) v
      = totalRespondents useW rows ∧
    ((∀ r ∈ rkFiltered rows, r.flag = some 1) →
      totalRespondents useW rows = memberRespondents useW rows) ∧
    u ∉ rankedItems (meltedR nanL possible rows) ∧
    totalScoreR useW (meltedR nanL possible rows) u = 0 ∧
    rankCountR (meltedR nanL possible rows) u rk = 0 := by
  have hfilterNil :
      (meltedR nanL possible rows).filter (fun o => o.2.1 == u) = [] := by
    rw [List.filter_eq_nil_iff]
    intro o ho
    simpa using hu o ho
  refine ⟨?_, ?_, ?_, ?_, ?_⟩
  · unfold meltedR
    rw [totalScoreR_bind]
    have hcongr : (rkFiltered rows).map
        (fun r => totalScoreR useW (slotOcc nanL possible r.w 1 r.slots) v)
        = (rkFiltered rows).map (fun r => if useW then r.w else (1 : ℚ)) := by
      apply List.map_congr_left
      intro r hr
      obtain ⟨hhead, htail⟩ := hfirst r hr
      obtain ⟨rest, hslots⟩ : ∃ rest, r.slots = some v :: rest := by
        cases hs : r.slots with
        | nil => rw [hs] at hhead; simp at hhead
        | cons a t =>
          rw [hs] at hhead
          simp only [List.head?_cons, Option.some.injEq] at hhead
          exact ⟨t, by rw [hhead]⟩
      rw [hslots] at htail ⊢
      simp only [List.tail_cons] at htail
      have hcond : ((!(decide (v ∈ nanL))) && decide (v ∈ possible)) = true := by
        simp [hv1, hv2]
      simp only [slotOcc, hcond, if_true]
      rw [totalScoreR_cons]
      simp [slotOcc_no_occ nanL possible r.w v useW rest htail (1 + 1)]
    rw [hcongr]
    unfold totalRespondents
    cases useW with
    | false => simp [sum_map_one]
    | true => simp
  · intro hall
    have hfeq : memberRows rows = rkFiltered rows := by
      unfold memberRows rkFiltered
      apply List.filter_congr
      intro r hrr
      cases hf : r.flag with
      | none => simp [hf]
      | some x =>
        have hrk : r ∈ rkFiltered rows :=
          List.mem_filter.mpr ⟨hrr, by simp [hf]⟩
        have hx := hall r hrk
        rw [hf] at hx
        injection hx with hx
        subst hx
        simp [hf]
    unfold totalRespondents memberRespondents
    rw [hfeq]
  · intro hmem
    have h1 : u ∈ firstApp ((meltedR nanL possible rows).map (fun o => o.2.1)) :=
      mem_sortQ hmem
    have h2 := mem_of_mem_firstApp h1
    rcases List.mem_map.mp h2 with ⟨o, ho, hoe⟩
    exact hu o ho hoe
  · unfold totalScoreR
    rw [hfilterNil]
    simp
  · unfold rankCountR
    have : (meltedR nanL possible rows).filter
        (fun o => o.2.1 == u && o.1 == rk) = [] := by
      rw [List.filter_eq_nil_iff]
      intro o ho
      simp only [Bool.and_eq_true, beq_iff_eq, not_and]
      intro h1
      exact absurd h1 (hu o ho)
    rw [this]
    simp

/-- C7 witness: one respondent with weight 2 and flag 1 who ranks item
1 first; item 1's total score is the weighted kept-rows count 2, every
kept row is a member so that count is also the category's respondent
count, and item 5 (never ranked) is absent from the output with zero
would-be score/count. -/
theorem c7_ranking_witness :
    totalScoreR true (meltedR [99] [1, 2] [⟨some 1, 2, [some 1]⟩]) 1
      = totalRespondents true [⟨some 1, 2, [some 1]⟩] ∧
    ((∀ r ∈ rkFiltered [⟨some 1, 2, [some 1]⟩], r.flag = some 1) →
      totalRespondents true [⟨some 1, 2, [some 1]⟩]
        = memberRespondents true [⟨some 1, 2, [some 1]⟩]) ∧
    (5 : ℚ) ∉ rankedItems (meltedR [99] [1, 2] [⟨some 1, 2, [some 1]⟩]) ∧
    totalScoreR true (meltedR [99] [1, 2] [⟨some 1, 2, [some 1]⟩]) 5 = 0 ∧
    rankCountR (meltedR [99] [1, 2] [⟨some 1, 2, [some 1]⟩]) 5 1 = 0 :=
  c7_ranking true [99] [1, 2] [⟨some 1, 2, [some 1]⟩] 1 5 1
    (by with_unfolding_all decide) (by with_unfolding_all decide)
    (by with_unfolding_all decide) (by with_unfolding_all decide)

/-- C7 counterexample.  (i) Never-ranked omission: the respondent ranks
only item 1; item 2 is a possible value that is never ranked, and the
per-category output contains no row for it at all (the output item list
is exactly `[1]`), contradicting "reported with a total score of 0 and
a count of 0".  (ii) The score's population: a member (flag 1) and a
NON-member (flag 0) both rank item 1 first — line 871's `is_not_null`
filter keeps both, so the code's unweighted total score is 2 while the
category's flag-true respondent count is 1: every respondent IN the
category places the item at rank 1, yet the score is not the category's
respondent count. -/
theorem c7_cx :
    rankedItems (meltedR [99] [1, 2] [⟨some 1, 1, [some 1]⟩]) = [1] ∧
    (2 : ℚ) ∉ rankedItems (meltedR [99] [1, 2] [⟨some 1, 1, [some 1]⟩]) ∧
    totalScoreR false
      (meltedR [99] [1] [⟨some 1, 1, [some 1]⟩, ⟨some 0, 1, [some 1]⟩]) 1
      = 2 ∧
    memberRespondents false
      [⟨some 1, 1, [some 1]⟩, ⟨some 0, 1, [some 1]⟩] = 1 ∧
    ((2 : ℚ) ≠ 1) := by
  refine ⟨by with_unfolding_all decide, by with_unfolding_all decide,
    by with_unfolding_all decide, by with_unfolding_all decide,
    by with_unfolding_all decide⟩

/-!
Index Aggregator — `Calculations.index`
(src/LysioDB/calculations.py lines 1090-1491), category path.

Missing-code handling: `_was_nan_value_code` flag columns count cells
holding a configured missing code (lines 1112-1123), and the codes are
then replaced via `pl.col(col).replace(nan_values_config)`.  The
contents of `config.NAN_VALUES` are not part of src/; following the
spec (§4.4, "missing codes are replaced with a null-equivalent before
numeric aggregation") each code maps to null.  The category path melts
the question columns, joins the per-question `Nan_Count`, drops
float-NaN `Value` rows (`drop_nans`, line 1262 — a no-op here since no
NaN arises), and then line 1367 applies `fill_null(0)` to the melted
frame BEFORE the group-by, so the nulled missing values re-enter the
aggregation as 0.
-/

/-- One in-category respondent's cell for one question: raw value and
respondent weight. -/
structure IRow where
  v : Option ℚ
  w : ℚ
deriving DecidableEq, Repr

/-- Modelled from the spec: `replace(nan_values_config)` —
`config.NAN_VALUES` lives outside src/, and spec §4.4 says missing codes
are replaced with a null-equivalent, so a coded value becomes null. -/
def cleanedV (nanL : List ℚ) (r : IRow) : Option ℚ :=
  match r.v with
  | none => none
  | some x => if x ∈ nanL then none else some x

/-- `Nan_Count` for the question within the category: sum of the
`_was_nan_value_code` flags (null cells are not missing-coded). -/
def nanFlagCount (nanL : List ℚ) (rows : List IRow) : ℚ :=
  ((rows.filter (fun r => match r.v with
    | some x => decide (x ∈ nanL)
    | none => false)).length : ℚ)

/-- The melted `Value` column after line 1367's `fill_null(0)`. -/
def filledVal (nanL : List ℚ) (r : IRow) : ℚ := (cleanedV nanL r).getD 0

/-- `Count_Individual = pl.count("Value")` after the fill: every melted
row counts, missing included. -/
def countIndividual (rows : List IRow) : ℚ := (rows.length : ℚ)

/-- The aggregated `Individual_Index` before suppression: simple mean of
the filled values, or `(Value * weight).sum() / weight.sum()`
(lines 1358-1364). -/
def indexMean (useW : Bool) (nanL : List ℚ) (rows : List IRow) : ℚ :=
  if useW then
    ((rows.map (fun r => filledVal nanL r * r.w)).sum)
      / ((rows.map (fun r => r.w)).sum)
  else ((rows.map (filledVal nanL)).sum) / (rows.length : ℚ)

/-- Lines 1366-1387: the reported per-question individual index for one
category; `none` (suppressed) exactly when
`Count_Individual + Nan_Count < MINIMUM_COUNT`. -/
def individualIndex (useW : Bool) (nanL : List ℚ) (minCount : ℚ)
    (rows : List IRow) : Option ℚ :=
  if countIndividual rows + nanFlagCount nanL rows < minCount then none
  else some (indexMean useW nanL rows)

/-- The claim's reading of the individual index (spec §4.4): the mean
over the non-missing rows only, suppressed when
(non-missing count + missing count) < minimum_count. -/
def specIndividualIndex (useW : Bool) (nanL : List ℚ) (minCount : ℚ)
    (rows : List IRow) : Option ℚ :=
  let valid := rows.filterMap (fun r => (cleanedV nanL r).map (fun x => (x, r.w)))
  if (valid.length : ℚ) + nanFlagCount nanL rows < minCount then none
  else some (if useW then
      ((valid.map (fun p => p.1 * p.2)).sum) / ((valid.map (fun p => p.2)).sum)
    else ((valid.map (fun p => p.1)).sum) / (valid.length : ℚ))

/-- A row holding a real (non-null, non-missing-coded) answer. -/
def cleanRow (nanL : List ℚ) (r : IRow) : Bool :=
  match r.v with
  | some x => !(decide (x ∈ nanL))
  | none => false

theorem valid_eq_of_clean (nanL : List ℚ) :
    ∀ rows : List IRow, (∀ r ∈ rows, cleanRow nanL r = true) →
    rows.filterMap (fun r => (cleanedV nanL r).map (fun x => (x, r.w)))
      = rows.map (fun r => (filledVal nanL r, r.w)) := by
  intro rows
  induction rows with
  | nil => intro _; simp
  | cons r rest ih =>
    intro h
    have hr := h r (List.mem_cons_self r rest)
    have hrest := ih (fun x hx => h x (List.mem_cons_of_mem _ hx))
    cases hv : r.v with
    | none => simp [cleanRow, hv] at hr
    | some x =>
      have hx : x ∉ nanL := by
        simp [cleanRow, hv] at hr
        exact hr
      have h1 : cleanedV nanL r = some x := by simp [cleanedV, hv, hx]
      have h2 : filledVal nanL r = x := by simp [filledVal, h1]
      simp only [List.filterMap_cons, List.map_cons, h1, Option.map_some',
        hrest, h2]

/-- C6 (amended): the suppression test compares
`Count_Individual + Nan_Count` with `minimum_count`, where
`Count_Individual` counts ALL in-scope rows — the `fill_null(0)` of line
1367 turns the nulled missing codes back into value 0, so they are
counted (and averaged as 0) rather than excluded; hence missing-coded
rows are double-counted by the test.  On rows without missing codes or
nulls the code agrees with the claim's reading (first conjunct);
`c6_cx` shows the divergence otherwise. -/
theorem c6_index_suppression (useW : Bool) (nanL : List ℚ) (minCount : ℚ)
    (rows : List IRow) (hclean : ∀ r ∈ rows, cleanRow nanL r = true) :
    individualIndex useW nanL minCount rows
      = specIndividualIndex useW nanL minCount rows ∧
    (individualIndex useW nanL minCount rows = none ↔
      countIndividual rows + nanFlagCount nanL rows < minCount) := by
  constructor
  · have hval := valid_eq_of_clean nanL rows hclean
    simp only [specIndividualIndex, hval, List.length_map, List.map_map]
    simp only [individualIndex, countIndividual, indexMean]
    rfl
  · by_cases h : countIndividual rows + nanFlagCount nanL rows < minCount <;>
      simp [individualIndex, h]

/-- C6 witness: a single clean answer with `minimum_count = 1`; the code
and the claim's reading agree, and nothing is suppressed. -/
theorem c6_index_suppression_witness :
    individualIndex false [99] 1 [⟨some 5, 1⟩]
      = specIndividualIndex false [99] 1 [⟨some 5, 1⟩] ∧
    (individualIndex false [99] 1 [⟨some 5, 1⟩] = none ↔
      countIndividual [⟨some 5, 1⟩] + nanFlagCount [99] [⟨some 5, 1⟩] < 1) :=
  c6_index_suppression false [99] 1 [⟨some 5, 1⟩] (by with_unfolding_all decide)

/-- C6 counterexample: one valid answer 5 and one missing-coded answer
(code 99) with `minimum_count = 3`.  The claim's reading suppresses
(non-missing 1 + missing 1 = 2 < 3); the code instead counts the filled
missing row (`Count_Individual = 2`, so 2 + 1 = 3 ≥ 3) and reports
(5 + 0)/2 = 5/2 — a numeric value, with the missing answer averaged
in as 0. -/
theorem c6_cx :
    individualIndex false [99] 3 [⟨some 5, 1⟩, ⟨some 99, 1⟩] = some (5 / 2) ∧
    specIndividualIndex false [99] 3 [⟨some 5, 1⟩, ⟨some 99, 1⟩] = none := by
  refine ⟨by with_unfolding_all decide, by with_unfolding_all decide⟩

/-!
ENI Classifier — `Calculations.eni`
(src/LysioDB/calculations.py lines 1731-1884).

Per in-category respondent, `Value = pl.mean_horizontal(questions_present)`
over the cleaned question columns (missing codes already replaced by
null, as in the Index Aggregator); `mean_horizontal` ignores nulls and
is null when every entry is null.  The bucket expression (lines
1846-1853) is `when(Value.is_between(3.0, 4.19)).then("2")
.when(Value >= 4.2).then("3").otherwise("1")`; `is_between` is closed on
both ends, and a null value falls through every condition to "1".
-/

/-- `pl.mean_horizontal` over one respondent's question values. -/
def meanHorizontal (vs : List (Option ℚ)) : Option ℚ :=
  if (vs.filterMap id).length = 0 then none
  else some ((vs.filterMap id).sum / ((vs.filterMap id).length : ℚ))

/-- The `ENI_Category` bucket of an average. -/
def eniBucket (v : Option ℚ) : String :=
  match v with
  | none => "1"
  | some x =>
      if 3 ≤ x ∧ x ≤ 419 / 100 then "2"
      else if 42 / 10 ≤ x then "3"
      else "1"

/-- The class assigned to a respondent (row of cleaned question
values). -/
def eniClassify (r : List (Option ℚ)) : String := eniBucket (meanHorizontal r)

/-- `category_count` of one class within a category (lines 1854-1856). -/
def classCount (rows : List (List (Option ℚ))) (c : String) : ℕ :=
  rows.countP (fun r => eniClassify r == c)

/-- `total_responses` of the category (lines 1857-1859): every
respondent row counts. -/
def eniTotal (rows : List (List (Option ℚ))) : ℕ := rows.length

/-- `ENI_Proportion` (lines 1860-1868). -/
def eniProportion (rows : List (List (Option ℚ))) (c : String) : ℚ :=
  (classCount rows c : ℚ) / (eniTotal rows : ℚ)

/-- C3 (amended): for a respondent with a non-null average `v`, the
classifier assigns class "2" exactly on the CLOSED interval
[3.0, 4.19] (not [3.0, 4.2)), class "3" exactly when `v ≥ 4.2`, and
class "1" when `v < 3.0` or when `v` falls in the uncovered gap
(4.19, 4.2).  The spec's boundary examples 3.0 ↦ "2", 4.2 ↦ "3",
2.9 ↦ "1" do hold; the claim's half-open interval fails only on the
gap (see `c3_cx`). -/
theorem c3_eni_buckets (r : List (Option ℚ)) (v : ℚ)
    (h : meanHorizontal r = some v) :
    (eniClassify r = "2" ↔ (3 ≤ v ∧ v ≤ 419 / 100)) ∧
    (eniClassify r = "3" ↔ 42 / 10 ≤ v) ∧
    (eniClassify r = "1" ↔ (v < 3 ∨ (419 / 100 < v ∧ v < 42 / 10))) := by
  unfold eniClassify
  rw [h]
  simp only [eniBucket]
  by_cases h2 : 3 ≤ v ∧ v ≤ 419 / 100
  · rw [if_pos h2]
    refine ⟨by simp [h2], ?_, ?_⟩
    · constructor
      · intro hs; exact absurd hs (by decide)
      · intro h3; exfalso; linarith [h2.2]
    · constructor
      · intro hs; exact absurd hs (by decide)
      · rintro (h1 | ⟨hg, _⟩)
        · linarith [h2.1]
        · linarith [h2.2]
  · rw [if_neg h2]
    by_cases h3 : 42 / 10 ≤ v
    · rw [if_pos h3]
      refine ⟨?_, by simp [h3], ?_⟩
      · constructor
        · intro hs; exact absurd hs (by decide)
        · intro hc; exact absurd hc h2
      · constructor
        · intro hs; exact absurd hs (by decide)
        · rintro (h1 | ⟨_, hl⟩)
          · linarith
          · linarith
    · rw [if_neg h3]
      push_neg at h2 h3
      refine ⟨?_, ?_, ?_⟩
      · constructor
        · intro hs; exact absurd hs (by decide)
        · rintro ⟨ha, hb⟩; exact absurd (h2 ha) (not_lt.mpr hb)
      · constructor
        · intro hs; exact absurd hs (by decide)
        · intro hc; exact absurd hc (not_le.mpr h3)
      · refine ⟨fun _ => ?_, fun _ => rfl⟩
        by_cases hlt : v < 3
        · exact Or.inl hlt
        · exact Or.inr ⟨h2 (not_lt.mp hlt), h3⟩

/-- C3 witness: an average of exactly 3.0 is classified "2", matching
the closed lower bound. -/
theorem c3_eni_buckets_witness :
    (eniClassify [some 3] = "2" ↔ (3 ≤ (3 : ℚ) ∧ (3 : ℚ) ≤ 419 / 100)) ∧
    (eniClassify [some 3] = "3" ↔ 42 / 10 ≤ (3 : ℚ)) ∧
    (eniClassify [some 3] = "1" ↔ ((3 : ℚ) < 3 ∨ (419 / 100 < (3 : ℚ) ∧ (3 : ℚ) < 42 / 10))) :=
  c3_eni_buckets [some 3] 3 (by with_unfolding_all decide)

/-- C3 counterexample: a respondent whose area average is 4.195 — inside
the claim's class-"2" interval [3.0, 4.2) — is classified "1", because
`is_between(3.0, 4.19)` is closed at 4.19 and the `>= 4.2` branch does
not fire. -/
theorem c3_cx :
    eniClassify [some (839 / 200)] = "1" ∧
    (3 : ℚ) ≤ 839 / 200 ∧ (839 / 200 : ℚ) < 42 / 10 := by
  refine ⟨by with_unfolding_all decide, by with_unfolding_all decide,
    by with_unfolding_all decide⟩

/-- C10: a respondent whose cleaned question values are all null has a
null average, is classified "1" (line 1851's `otherwise`), and is
counted both in the class-"1" numerator and in `total_responses`; the
class-"2" and class-"3" proportions are therefore no larger than they
would be over only the respondents with a non-null average. -/
theorem c10_eni_null_average (rows : List (List (Option ℚ)))
    (r : List (Option ℚ)) (hr : r ∈ rows) (ha : meanHorizontal r = none)
    (hne : 0 < ((rows.filter (fun x => (meanHorizontal x).isSome)).length : ℚ)) :
    eniClassify r = "1" ∧
    1 ≤ classCount rows "1" ∧
    eniTotal rows = rows.length ∧
    (1 : ℚ) / (eniTotal rows : ℚ) ≤ eniProportion rows "1" ∧
    eniProportion rows "2"
      ≤ (classCount (rows.filter (fun x => (meanHorizontal x).isSome)) "2" : ℚ)
        / ((rows.filter (fun x => (meanHorizontal x).isSome)).length : ℚ) ∧
    eniProportion rows "3"
      ≤ (classCount (rows.filter (fun x => (meanHorizontal x).isSome)) "3" : ℚ)
        / ((rows.filter (fun x => (meanHorizontal x).isSome)).length : ℚ) := by
  have hclass : eniClassify r = "1" := by
    unfold eniClassify
    rw [ha]
    rfl
  have hcount : 1 ≤ classCount rows "1" := by
    have : 0 < classCount rows "1" :=
      List.countP_pos_iff.mpr ⟨r, hr, by simp [hclass]⟩
    omega
  have hNpos : (0 : ℚ) < (rows.length : ℚ) := by
    have : 0 < rows.length := List.length_pos.mpr (List.ne_nil_of_mem hr)
    exact_mod_cast this
  have hrestrict : ∀ c : String, c ≠ "1" →
      classCount rows c
        = classCount (rows.filter (fun x => (meanHorizontal x).isSome)) c := by
    intro c hc
    unfold classCount
    rw [List.countP_filter]
    apply List.countP_congr
    intro a _
    constructor
    · intro hp
      have hsome : (meanHorizontal a).isSome = true := by
        cases hm : meanHorizontal a with
        | none =>
          have : eniClassify a = "1" := by
            unfold eniClassify
            rw [hm]
            rfl
          simp only [beq_iff_eq] at hp
          exact absurd (hp.symm.trans this) hc
        | some x => rfl
      simp [hp, hsome]
    · intro hp
      simp only [Bool.and_eq_true] at hp
      exact hp.1
  have hmono : ∀ c : String, c ≠ "1" →
      eniProportion rows c
        ≤ (classCount (rows.filter (fun x => (meanHorizontal x).isSome)) c : ℚ)
          / ((rows.filter (fun x => (meanHorizontal x).isSome)).length : ℚ) := by
    intro c hc
    unfold eniProportion eniTotal
    rw [hrestrict c hc]
    rw [div_le_div_iff₀ hNpos hne]
    apply mul_le_mul_of_nonneg_left
    · exact_mod_cast List.length_filter_le _ _
    · positivity
  refine ⟨hclass, hcount, rfl, ?_, hmono "2" (by decide), hmono "3" (by decide)⟩
  unfold eniProportion eniTotal
  rw [div_le_div_iff₀ hNpos hNpos]
  apply mul_le_mul_of_nonneg_right
  · exact_mod_cast hcount
  · positivity

/-- C10 witness: two respondents, one with every question null and one
with average 4; the null respondent is class "1" and the class-"2"
proportion 1/2 is at most the restricted proportion 1/1. -/
theorem c10_eni_null_average_witness :
    eniClassify [(none : Option ℚ)] = "1" ∧
    1 ≤ classCount [[(none : Option ℚ)], [some 4]] "1" ∧
    eniTotal [[(none : Option ℚ)], [some 4]]
      = ([[(none : Option ℚ)], [some 4]] : List (List (Option ℚ))).length ∧
    (1 : ℚ) / (eniTotal [[(none : Option ℚ)], [some 4]] : ℚ)
      ≤ eniProportion [[(none : Option ℚ)], [some 4]] "1" ∧
    eniProportion [[(none : Option ℚ)], [some 4]] "2"
      ≤ (classCount (([[(none : Option ℚ)], [some 4]] : List (List (Option ℚ))).filter
          (fun x => (meanHorizontal x).isSome)) "2" : ℚ)
        / ((([[(none : Option ℚ)], [some 4]] : List (List (Option ℚ))).filter
          (fun x => (meanHorizontal x).isSome)).length : ℚ) ∧
    eniProportion [[(none : Option ℚ)], [some 4]] "3"
      ≤ (classCount (([[(none : Option ℚ)], [some 4]] : List (List (Option ℚ))).filter
          (fun x => (meanHorizontal x).isSome)) "3" : ℚ)
        / ((([[(none : Option ℚ)], [some 4]] : List (List (Option ℚ))).filter
          (fun x => (meanHorizontal x).isSome)).length : ℚ) :=
  c10_eni_null_average [[(none : Option ℚ)], [some 4]] [(none : Option ℚ)]
    (by with_unfolding_all decide) (by with_unfolding_all decide)
    (by with_unfolding_all decide)

/-- Lookup of an area's question list in `config.area_map`
(`area_map.get(area)` semantics: `None` when absent). -/
def lookupArea (areaMap : List (String × List String)) (k : String) :
    Option (List String) :=
  (areaMap.find? (fun p => p.1 == k)).map Prod.snd

/-- Lines 1778-1780 of `Calculations.eni`: the list comprehension
`[q for q in self.database.config.area_map.get(area) if q in df_clean.columns]`
iterates over `area_map.get(area)`; when the area is absent this is
`None` and Python raises `TypeError: NoneType is not iterable`, which
aborts the whole run — modelled as an `Except.error`. -/
def eniQuestionsPresent (areaMap : List (String × List String))
    (area : String) (cols : List String) : Except String (List String) :=
  match lookupArea areaMap area with
  | none => Except.error "TypeError"
  | some qs => Except.ok (qs.filter (fun q => decide (q ∈ cols)))

/-- C9: calling the ENI classifier with an area name that is missing
from the area map raises (aborts), instead of skipping the affected
computation with a diagnostic as the error-handling design requires;
a present area is filtered against the dataset columns as usual. -/
theorem c9_eval :
    eniQuestionsPresent [("Engagemang", ["q1", "q2"])] "Ledarskap" ["q1"]
      = Except.error "TypeError" ∧
    eniQuestionsPresent [("Engagemang", ["q1", "q2"])] "Engagemang" ["q1"]
      = Except.ok ["q1"] := by
  refine ⟨by with_unfolding_all rfl, by with_unfolding_all rfl⟩
